import Mathlib

/-!
Verification of the LinkedIn auto-poster pipeline (`linkedin_post.py`).

Python strings are modelled as `List Char`. Stateful I/O (HTTP calls, the
LLM replies, file contents, the clock) is modelled by passing the external
data in as explicit arguments, and fallible Python code by `Except`/`Option`
results. `json.loads` is modelled by a recursive-descent parser over the
standard JSON grammar (objects, arrays, strings with escapes, numbers kept
as their lexemes, `true`/`false`/`null`); the non-standard `NaN`/`Infinity`
extensions of Python's decoder are not modelled.
-/

/-- Characters of a Python string literal. -/
def lit (s : String) : List Char := s.data

/-- Python `str.strip` whitespace set (the common ASCII whitespace). -/
def isPyWs (c : Char) : Bool :=
  decide (c = ' ' ∨ c = '\t' ∨ c = '\n' ∨ c = '\r' ∨ c = '\x0b' ∨ c = '\x0c')

/-- The whitespace accepted around JSON tokens by `json.loads`. -/
def isJsonWs (c : Char) : Bool :=
  decide (c = ' ' ∨ c = '\t' ∨ c = '\n' ∨ c = '\r')

/-- Python `str.strip()`: drop whitespace from both ends. -/
def pyStrip (l : List Char) : List Char :=
  (((l.dropWhile isPyWs).reverse).dropWhile isPyWs).reverse

/-- Python `str.startswith`, first argument the pattern. -/
def startsWithL : List Char → List Char → Bool
  | [], _ => true
  | _ :: _, [] => false
  | p :: ps, c :: cs => if p = c then startsWithL ps cs else false

/-- Python `str.endswith`, first argument the pattern. -/
def endsWithL (pat s : List Char) : Bool :=
  startsWithL pat.reverse s.reverse

/-- Python `str.lower` (ASCII case folding). -/
def lowerL (l : List Char) : List Char := l.map Char.toLower

/-- ASCII decimal digit. -/
def isDigitChar (c : Char) : Bool :=
  decide (c = '0' ∨ c = '1' ∨ c = '2' ∨ c = '3' ∨ c = '4' ∨ c = '5' ∨ c = '6' ∨
          c = '7' ∨ c = '8' ∨ c = '9')

/-- A raw topic record assembled in `search_trending_topics` (dict with keys
title/body/source/date). -/
structure TopicCandidate where
  title : List Char
  body : List Char
  source : List Char
  date : List Char
deriving DecidableEq

/-- The dedup loop of `search_trending_topics`: membership of the lower-cased
title in `seen_titles` is tested first, then truthiness (non-emptiness) of the
title; kept candidates add their lower-cased title to `seen_titles`. -/
def dedupLoop : List TopicCandidate → List (List Char) → List TopicCandidate
  | [], _ => []
  | r :: rs, seen =>
    if lowerL r.title ∉ seen ∧ r.title ≠ [] then
      r :: dedupLoop rs (lowerL r.title :: seen)
    else
      dedupLoop rs seen

/-- `unique_results` as computed from `all_results` (empty `seen_titles`). -/
def uniqueResults (all_results : List TopicCandidate) : List TopicCandidate :=
  dedupLoop all_results []

/-- `get_fallback_topics()`: the five hardcoded records. -/
def get_fallback_topics : List TopicCandidate :=
  [ { title := lit "Kotlin 2.0 and the future of Android development",
      body := lit "Kotlin 2.0 brings major improvements to the language including better performance and new features",
      source := lit "Android Weekly", date := lit "recent" },
    { title := lit "Jetpack Compose performance optimization techniques",
      body := lit "Best practices for building smooth 60fps UIs with Compose including recomposition optimization",
      source := lit "Android Developers Blog", date := lit "recent" },
    { title := lit "Android 15 new features for developers",
      body := lit "Latest Android version brings new APIs and capabilities for app developers",
      source := lit "Google", date := lit "recent" },
    { title := lit "Health Connect SDK integration patterns",
      body := lit "Building health and fitness apps with Google Health Connect SDK best practices",
      source := lit "Android Health", date := lit "recent" },
    { title := lit "Modern Android app architecture with MVI pattern",
      body := lit "Moving beyond MVVM to Model-View-Intent for better state management",
      source := lit "ProAndroidDev", date := lit "recent" } ]

/-- The dedup/fallback/truncate tail of `search_trending_topics`, taking the
raw `all_results` sequence as input (the RSS fetch is external). -/
def searchStage (all_results : List TopicCandidate) : List TopicCandidate :=
  let u := uniqueResults all_results
  let u := if u.isEmpty then get_fallback_topics else u
  u.take 5

/-- The reply post-processing of `generate_post`: strip whitespace, and strip
one pair of surrounding straight double quotes (`post_content[1:-1]`). -/
def cleanPost (post_content : List Char) : List Char :=
  let p := pyStrip post_content
  if startsWithL ['"'] p && endsWithL ['"'] p then
    (p.drop 1).take (p.length - 2)
  else p

/-- The publish-result dict of `post_to_linkedin`. Absent dict keys are
modelled as `none`. -/
structure PublishResult where
  success : Bool
  post_id : Option (List Char)
  error : Option (List Char)
deriving DecidableEq

/-- An HTTP response as observed by the code: status, headers, body text. -/
structure HttpResponse where
  status : Nat
  headers : List (List Char × List Char)
  body : List Char
deriving DecidableEq

/-- `response.headers.get(key, default)`: `requests` header lookup is
case-insensitive. -/
def headersGet (headers : List (List Char × List Char)) (key dflt : List Char) :
    List Char :=
  match headers.find? (fun kv => lowerL kv.1 == lowerL key) with
  | some kv => kv.2
  | none => dflt

/-- The response handling at the end of `post_to_linkedin`: 201 yields a
success dict with the `x-restli-id` header, anything else a failure dict with
the raw body text. -/
def publishResponseResult (resp : HttpResponse) : PublishResult :=
  if resp.status = 201 then
    { success := true,
      post_id := some (headersGet resp.headers (lit "x-restli-id") (lit "Unknown")),
      error := none }
  else
    { success := false, post_id := none, error := some resp.body }

/-- `post_to_linkedin` as a whole: token check, lazy URN lookup via the
userinfo endpoint, then the publish call.  The external data (token presence,
userinfo status, publish response) are inputs. -/
def post_to_linkedin (hasToken : Bool) (person_urn : Option (List Char))
    (userinfoStatus : Nat) (publishResp : HttpResponse) : PublishResult :=
  if !hasToken then
    { success := false, post_id := none, error := some (lit "No tokens") }
  else
    match person_urn with
    | some _ => publishResponseResult publishResp
    | none =>
      if userinfoStatus = 200 then publishResponseResult publishResp
      else
        { success := false, post_id := none,
          error := some (lit "Failed to get user URN") }

/-- One entry of the persisted history structure. -/
structure HistoryEntry where
  date : List Char
  topic : List Char
  post_preview : List Char
  post_id : List Char
deriving DecidableEq

/-- `save_to_history`: append one entry with a truncated preview
(`post_content[:100] + "..."`) and keep only the last 50 (`posts[-50:]`). -/
def save_to_history (posts : List HistoryEntry)
    (now topic post_content post_id : List Char) : List HistoryEntry :=
  let posts2 := posts ++
    [ { date := now, topic := topic,
        post_preview := post_content.take 100 ++ lit "...",
        post_id := post_id } ]
  posts2.drop (posts2.length - 50)

/-- Step 4 of `main` (non-dry-run): history is written only when the publish
result dict has `success = True`; otherwise the history state is untouched. -/
def mainPublishStep (result : PublishResult) (topic post_content now : List Char)
    (posts : List HistoryEntry) : List HistoryEntry :=
  if result.success then
    save_to_history posts now topic post_content
      (result.post_id.getD (lit "unknown"))
  else posts

/-- JSON values as produced by `json.loads`.  Numbers are kept as their
lexemes (the claims never compute with numeric values), objects as ordered
key/value lists with later duplicates overriding on lookup, as in a Python
dict built by the decoder. -/
inductive Json where
  | null
  | bool (b : Bool)
  | num (lexeme : List Char)
  | str (s : List Char)
  | arr (elems : List Json)
  | obj (members : List (List Char × Json))

/-- ASCII hexadecimal digit. -/
def isHexDigitChar (c : Char) : Bool :=
  isDigitChar c || decide ('a' ≤ c ∧ c ≤ 'f') || decide ('A' ≤ c ∧ c ≤ 'F')

/-- Value of a hexadecimal digit. -/
def hexVal (c : Char) : Nat :=
  if isDigitChar c then c.toNat - 48
  else if decide ('a' ≤ c ∧ c ≤ 'f') then c.toNat - 87
  else c.toNat - 55

/-- Simple JSON string escapes. -/
def escChar : Char → Option Char
  | '"' => some '"'
  | '\\' => some '\\'
  | '/' => some '/'
  | 'b' => some (Char.ofNat 8)
  | 'f' => some (Char.ofNat 12)
  | 'n' => some '\n'
  | 'r' => some '\r'
  | 't' => some '\t'
  | _ => none

/-- Skip JSON whitespace. -/
def skipWs (l : List Char) : List Char := l.dropWhile isJsonWs

/-- Body of a JSON string after the opening quote, up to and including the
closing quote; unescaped control characters are rejected (strict mode). -/
def parseStringBody : Nat → List Char → Option (List Char × List Char)
  | 0, _ => none
  | fuel + 1, l =>
    match l with
    | [] => none
    | c :: cs =>
      if c = '"' then some ([], cs)
      else if c = '\\' then
        match cs with
        | [] => none
        | e :: cs2 =>
          if e = 'u' then
            match cs2 with
            | h1 :: h2 :: h3 :: h4 :: cs3 =>
              if isHexDigitChar h1 && isHexDigitChar h2 && isHexDigitChar h3 &&
                  isHexDigitChar h4 then
                match parseStringBody fuel cs3 with
                | some (s, r) =>
                  some (Char.ofNat (((hexVal h1 * 16 + hexVal h2) * 16 + hexVal h3) * 16
                    + hexVal h4) :: s, r)
                | none => none
              else none
            | _ => none
          else
            match escChar e with
            | some ec =>
              match parseStringBody fuel cs2 with
              | some (s, r) => some (ec :: s, r)
              | none => none
            | none => none
      else if c.toNat < 32 then none
      else
        match parseStringBody fuel cs with
        | some (s, r) => some (c :: s, r)
        | none => none

/-- Integer part of a JSON number: `0`, or a nonzero digit followed by
digits. -/
def parseIntPart : List Char → Option (List Char × List Char)
  | [] => none
  | c :: rest =>
    if c = '0' then some (['0'], rest)
    else if isDigitChar c then
      some (c :: rest.takeWhile isDigitChar, rest.dropWhile isDigitChar)
    else none

/-- Optional fraction part: `.` followed by at least one digit. -/
def parseFracPart : List Char → Option (List Char × List Char)
  | [] => some ([], [])
  | c :: rest =>
    if c = '.' then
      let ds := rest.takeWhile isDigitChar
      if ds.isEmpty then none
      else some ('.' :: ds, rest.dropWhile isDigitChar)
    else some ([], c :: rest)

/-- At least one digit after an exponent marker (and optional sign). -/
def parseExpDigits (pre l : List Char) : Option (List Char × List Char) :=
  let ds := l.takeWhile isDigitChar
  if ds.isEmpty then none else some (pre ++ ds, l.dropWhile isDigitChar)

/-- Optional exponent part: `e`/`E`, optional sign, digits. -/
def parseExpPart : List Char → Option (List Char × List Char)
  | [] => some ([], [])
  | c :: rest =>
    if c = 'e' ∨ c = 'E' then
      match rest with
      | [] => none
      | s :: rest2 =>
        if s = '+' ∨ s = '-' then parseExpDigits [c, s] rest2
        else parseExpDigits [c] rest
    else some ([], c :: rest)

/-- Fraction and exponent after the integer part. -/
def parseNumTail (pre r1 : List Char) : Option (List Char × List Char) :=
  match parseFracPart r1 with
  | some (f, r2) =>
    match parseExpPart r2 with
    | some (e, r3) => some (pre ++ f ++ e, r3)
    | none => none
  | none => none

/-- A JSON number lexeme: optional minus, integer part, fraction, exponent. -/
def parseNumber (l : List Char) : Option (List Char × List Char) :=
  match l with
  | [] => none
  | c :: rest =>
    if c = '-' then
      match parseIntPart rest with
      | some (i, r1) => parseNumTail ('-' :: i) r1
      | none => none
    else
      match parseIntPart (c :: rest) with
      | some (i, r1) => parseNumTail i r1
      | none => none

mutual

/-- A single JSON value; the input must start at the value's first
character (callers skip whitespace). -/
def parseValue : Nat → List Char → Option (Json × List Char)
  | 0, _ => none
  | fuel + 1, l =>
    match l with
    | [] => none
    | c :: cs =>
      if c = 'n' then
        match cs with
        | 'u' :: 'l' :: 'l' :: r => some (Json.null, r)
        | _ => none
      else if c = 't' then
        match cs with
        | 'r' :: 'u' :: 'e' :: r => some (Json.bool true, r)
        | _ => none
      else if c = 'f' then
        match cs with
        | 'a' :: 'l' :: 's' :: 'e' :: r => some (Json.bool false, r)
        | _ => none
      else if c = '"' then
        match parseStringBody fuel cs with
        | some (s, r) => some (Json.str s, r)
        | none => none
      else if c = '{' then
        match skipWs cs with
        | '}' :: r => some (Json.obj [], r)
        | l2 => parseMembers fuel l2 []
      else if c = '[' then
        match skipWs cs with
        | ']' :: r => some (Json.arr [], r)
        | l2 => parseElems fuel l2 []
      else
        match parseNumber (c :: cs) with
        | some (lex, r) => some (Json.num lex, r)
        | none => none

/-- Members of a nonempty JSON object, after the opening brace and
whitespace. -/
def parseMembers : Nat → List Char → List (List Char × Json) →
    Option (Json × List Char)
  | 0, _, _ => none
  | fuel + 1, l, acc =>
    match l with
    | '"' :: rest =>
      match parseStringBody fuel rest with
      | some (k, r1) =>
        match skipWs r1 with
        | ':' :: r2 =>
          match parseValue fuel (skipWs r2) with
          | some (v, r3) =>
            match skipWs r3 with
            | ',' :: r4 => parseMembers fuel (skipWs r4) (acc ++ [(k, v)])
            | '}' :: r4 => some (Json.obj (acc ++ [(k, v)]), r4)
            | _ => none
          | none => none
        | _ => none
      | none => none
    | _ => none

/-- Elements of a nonempty JSON array, after the opening bracket and
whitespace. -/
def parseElems : Nat → List Char → List Json → Option (Json × List Char)
  | 0, _, _ => none
  | fuel + 1, l, acc =>
    match parseValue fuel l with
    | some (v, r1) =>
      match skipWs r1 with
      | ',' :: r2 => parseElems fuel (skipWs r2) (acc ++ [v])
      | ']' :: r2 => some (Json.arr (acc ++ [v]), r2)
      | _ => none
    | none => none

end

/-- `json.loads`: skip surrounding whitespace, parse one value, require the
remainder to be whitespace only.  The fuel `l.length + 1` never runs out
because every recursive call consumes at least one character first. -/
def jsonLoadsL (l : List Char) : Option Json :=
  match parseValue (l.length + 1) (skipWs l) with
  | some (v, rest) => if rest.all isJsonWs then some v else none
  | none => none

/-- The inline reply cleaning of `pick_best_topic`: strip, drop a leading
```` ```json ```` or ```` ``` ```` fence, drop a trailing ```` ``` ```` fence,
strip again (the inner strip is the `response.strip()` inside `json.loads`'s
argument). -/
def cleanResp (response : List Char) : List Char :=
  let r0 := pyStrip response
  let r1 := if startsWithL (lit "```json") r0 then r0.drop 7 else r0
  let r2 := if startsWithL (lit "```") r1 then r1.drop 3 else r1
  let r3 := if endsWithL (lit "```") r2 then r2.take (r2.length - 3) else r2
  pyStrip r3

/-- Exceptions that can escape the modelled fragments. -/
inductive PyError where
  | typeError
  | keyError (key : List Char)
  | indexError
deriving DecidableEq

/-- Lookup in a decoded JSON object: later duplicate keys override earlier
ones, as in the dict built by `json.loads`. -/
def lookupLast : List (List Char × Json) → List Char → Option Json
  | [], _ => none
  | (k, v) :: rest, key =>
    match lookupLast rest key with
    | some r => some r
    | none => if k = key then some v else none

/-- Python `result[key]` on a decoded JSON value: a dict lookup raises
`KeyError` on a missing key; subscripting any non-dict decoded value with a
string raises `TypeError`. -/
def pyGetItem : Json → List Char → Except PyError Json
  | Json.obj kvs, key =>
    match lookupLast kvs key with
    | some v => Except.ok v
    | none => Except.error (PyError.keyError key)
  | _, _ => Except.error PyError.typeError

/-- Python `value[:50]` on a decoded JSON value: slicing works on strings and
lists and raises `TypeError` on anything else. -/
def pyTake50 : Json → Except PyError Json
  | Json.str s => Except.ok (Json.str (s.take 50))
  | Json.arr a => Except.ok (Json.arr (a.take 50))
  | _ => Except.error PyError.typeError

/-- The default decision dict built from the first candidate when JSON
decoding fails. -/
def fallbackDecision (t0 : TopicCandidate) : Json :=
  Json.obj
    [ (lit "selected_topic", Json.str t0.title),
      (lit "why_selected", Json.str (lit "First trending topic")),
      (lit "post_angle", Json.str (lit "Share thoughts on this trend")),
      (lit "post_type", Json.str (lit "trend_analysis")) ]

/-- The parsing half of `pick_best_topic`, with the LLM reply as input.
Only `json.JSONDecodeError` is caught; the success path evaluates
`result['selected_topic'][:50]` and `result['post_angle']` before returning
`result`, so a `TypeError`/`KeyError` raised there propagates.  On decode
failure with an empty candidate list, `topics[0]` raises `IndexError`. -/
def pick_best_topic (topics : List TopicCandidate) (response : List Char) :
    Except PyError Json :=
  match jsonLoadsL (cleanResp response) with
  | some result =>
    match pyGetItem result (lit "selected_topic") with
    | Except.ok sel =>
      match pyTake50 sel with
      | Except.ok _ =>
        match pyGetItem result (lit "post_angle") with
        | Except.ok _ => Except.ok result
        | Except.error e => Except.error e
      | Except.error e => Except.error e
    | Except.error e => Except.error e
  | none =>
    match topics with
    | t0 :: _ => Except.ok (fallbackDecision t0)
    | [] => Except.error PyError.indexError

/-- Does a decoded value have the shape `pick_best_topic`'s success path
requires: a dict containing both `selected_topic` and `post_angle`? -/
def hasDecisionKeys (j : Json) : Bool :=
  match j with
  | Json.obj kvs =>
    (lookupLast kvs (lit "selected_topic")).isSome &&
    (lookupLast kvs (lit "post_angle")).isSome
  | _ => false

/-- A reply wrapped in triple-backtick fences with a leading `json` tag. -/
def wrapFence (d : List Char) : List Char :=
  lit "```json" ++ ('\n' :: d) ++ ('\n' :: lit "```")

/-- Characters that can begin a JSON value. -/
def ValueStart (c : Char) : Prop :=
  c = '{' ∨ c = '[' ∨ c = '"' ∨ c = 't' ∨ c = 'f' ∨ c = 'n' ∨ c = '-' ∨
  isDigitChar c = true

/-- Characters that can end a JSON value. -/
def ValueEnd (c : Char) : Prop :=
  c = '}' ∨ c = ']' ∨ c = '"' ∨ c = 'e' ∨ c = 'l' ∨ isDigitChar c = true

/-- Shape of a successful `parseValue` run: a nonempty consumed segment whose
first character can start and whose last character can end a JSON value. -/
def ValShape (l rest : List Char) : Prop :=
  ∃ core a b, l = core ++ rest ∧ core.head? = some a ∧ core.getLast? = some b ∧
    ValueStart a ∧ ValueEnd b

/-- Shape of a successful `parseMembers` run: the consumed segment ends with
the closing brace. -/
def MemShape (l rest : List Char) : Prop :=
  ∃ t, l = t ++ '}' :: rest

/-- Shape of a successful `parseElems` run: the consumed segment ends with
the closing bracket. -/
def ElemShape (l rest : List Char) : Prop :=
  ∃ t, l = t ++ ']' :: rest

/-! ## Helper lemmas -/

theorem dedup_sublist (l : List TopicCandidate) :
    ∀ seen, List.Sublist (dedupLoop l seen) l := by
  induction l with
  | nil => intro seen; simp [dedupLoop]
  | cons r rs ih =>
    intro seen
    by_cases h : lowerL r.title ∉ seen ∧ r.title ≠ []
    · simp only [dedupLoop, if_pos h]
      exact List.Sublist.cons₂ r (ih _)
    · simp only [dedupLoop, if_neg h]
      exact List.Sublist.cons r (ih _)

theorem dedup_not_mem_seen (l : List TopicCandidate) :
    ∀ seen c, c ∈ dedupLoop l seen → lowerL c.title ∉ seen := by
  induction l with
  | nil => simp [dedupLoop]
  | cons r rs ih =>
    intro seen c hc
    by_cases h : lowerL r.title ∉ seen ∧ r.title ≠ []
    · simp only [dedupLoop, if_pos h] at hc
      rcases List.mem_cons.mp hc with rfl | hc
      · exact h.1
      · have h2 := ih _ _ hc
        intro hmem
        exact h2 (List.mem_cons_of_mem _ hmem)
    · simp only [dedupLoop, if_neg h] at hc
      exact ih _ _ hc

theorem dedup_nodup (l : List TopicCandidate) :
    ∀ seen, ((dedupLoop l seen).map (fun c => lowerL c.title)).Nodup := by
  induction l with
  | nil => intro seen; simp [dedupLoop]
  | cons r rs ih =>
    intro seen
    by_cases h : lowerL r.title ∉ seen ∧ r.title ≠ []
    · simp only [dedupLoop, if_pos h, List.map_cons, List.nodup_cons]
      refine ⟨?_, ih _⟩
      intro hmem
      rcases List.mem_map.mp hmem with ⟨c, hc, hceq⟩
      have h2 := dedup_not_mem_seen rs _ c hc
      exact h2 (by rw [hceq]; exact List.mem_cons_self _ _)
    · simp only [dedupLoop, if_neg h]
      exact ih _

theorem dedup_title_ne (l : List TopicCandidate) :
    ∀ seen c, c ∈ dedupLoop l seen → c.title ≠ [] := by
  induction l with
  | nil => simp [dedupLoop]
  | cons r rs ih =>
    intro seen c hc
    by_cases h : lowerL r.title ∉ seen ∧ r.title ≠ []
    · simp only [dedupLoop, if_pos h] at hc
      rcases List.mem_cons.mp hc with rfl | hc
      · exact h.2
      · exact ih _ _ hc
    · simp only [dedupLoop, if_neg h] at hc
      exact ih _ _ hc

theorem dedup_first_occ (l : List TopicCandidate) :
    ∀ seen c, c ∈ dedupLoop l seen → ∃ pre suf, l = pre ++ c :: suf ∧
      ∀ c2 ∈ pre, c2.title = [] ∨ lowerL c2.title ≠ lowerL c.title := by
  induction l with
  | nil => simp [dedupLoop]
  | cons r rs ih =>
    intro seen c hc
    by_cases h : lowerL r.title ∉ seen ∧ r.title ≠ []
    · simp only [dedupLoop, if_pos h] at hc
      rcases List.mem_cons.mp hc with rfl | hc
      · exact ⟨[], rs, rfl, by simp⟩
      · obtain ⟨pre, suf, heq, hpre⟩ := ih _ _ hc
        refine ⟨r :: pre, suf, by simp [heq], ?_⟩
        intro c2 hc2
        rcases List.mem_cons.mp hc2 with rfl | hc2
        · right
          have hns := dedup_not_mem_seen rs _ c hc
          intro heq2
          exact hns (by rw [← heq2]; exact List.mem_cons_self _ _)
        · exact hpre c2 hc2
    · simp only [dedupLoop, if_neg h] at hc
      obtain ⟨pre, suf, heq, hpre⟩ := ih _ _ hc
      refine ⟨r :: pre, suf, by simp [heq], ?_⟩
      intro c2 hc2
      rcases List.mem_cons.mp hc2 with rfl | hc2
      · by_cases ht : c2.title = []
        · exact Or.inl ht
        · have hmem : lowerL c2.title ∈ seen := by
            by_contra hnm
            exact h ⟨hnm, ht⟩
          right
          intro heq2
          have hns := dedup_not_mem_seen rs seen c hc
          exact hns (by rw [← heq2]; exact hmem)
      · exact hpre c2 hc2

/-! ## Claim theorems: C2, C3 -/

/-- C2: for any input sequence of candidate records, the deduplication stage
keeps each distinct lower-cased title at most once, keeps candidates in
first-occurrence input order (the output is a sublist, and each kept candidate
is preceded in the input only by candidates with empty or different
lower-cased titles), drops candidates with an empty title, and the final list
returned by the stage has length at most 5. -/
theorem c2_dedup (l : List TopicCandidate) :
    ((uniqueResults l).map (fun c => lowerL c.title)).Nodup
    ∧ List.Sublist (uniqueResults l) l
    ∧ (∀ c ∈ uniqueResults l, c.title ≠ [])
    ∧ (∀ c ∈ uniqueResults l, ∃ pre suf, l = pre ++ c :: suf ∧
        ∀ c2 ∈ pre, c2.title = [] ∨ lowerL c2.title ≠ lowerL c.title)
    ∧ (searchStage l).length ≤ 5 := by
  refine ⟨dedup_nodup l [], dedup_sublist l [], ?_, ?_, ?_⟩
  · exact fun c hc => dedup_title_ne l [] c hc
  · exact fun c hc => dedup_first_occ l [] c hc
  · simp only [searchStage]
    exact List.length_take_le _ _

theorem c2_witness :
    (⟨lit "Kotlin News", lit "b2", lit "s2", lit "d2"⟩ : TopicCandidate).title ≠ []
    ∧ (∃ pre suf,
        [ (⟨lit "kotlin news", lit "b1", lit "s1", lit "d1"⟩ : TopicCandidate),
          ⟨[], lit "b0", lit "s0", lit "d0"⟩,
          ⟨lit "Kotlin News", lit "b2", lit "s2", lit "d2"⟩ ] = pre ++
          (⟨lit "kotlin news", lit "b1", lit "s1", lit "d1"⟩ : TopicCandidate) :: suf ∧
        ∀ c2 ∈ pre, c2.title = [] ∨
          lowerL c2.title ≠ lowerL (lit "kotlin news")) := by
  constructor
  · exact (c2_dedup [⟨lit "Kotlin News", lit "b2", lit "s2", lit "d2"⟩]).2.2.1 _
      (by decide)
  · exact (c2_dedup
      [ ⟨lit "kotlin news", lit "b1", lit "s1", lit "d1"⟩,
        ⟨[], lit "b0", lit "s0", lit "d0"⟩,
        ⟨lit "Kotlin News", lit "b2", lit "s2", lit "d2"⟩ ]).2.2.2.1 _ (by decide)

/-- C3: whenever the deduplicated candidate sequence is empty, the stage
returns exactly the 5 hardcoded fallback records, in order and unmodified. -/
theorem c3_fallback_exact (l : List TopicCandidate)
    (h : uniqueResults l = []) :
    searchStage l = get_fallback_topics ∧ get_fallback_topics.length = 5 := by
  constructor
  · simp only [searchStage, h, List.isEmpty_nil, if_pos]
    rfl
  · rfl

theorem c3_witness :
    searchStage [⟨[], lit "body", lit "src", lit "date"⟩] = get_fallback_topics
    ∧ get_fallback_topics.length = 5 :=
  c3_fallback_exact [⟨[], lit "body", lit "src", lit "date"⟩] rfl

/-! ## Claim theorems: C5, C10 -/

theorem startsWithL_cons_ne_nil {p : Char} {ps l : List Char}
    (h : startsWithL (p :: ps) l = true) : l ≠ [] := by
  cases l with
  | nil => simp [startsWithL] at h
  | cons c cs => simp

theorem cleanPost_no_quotes (s : List Char)
    (h : (startsWithL ['"'] (pyStrip s) && endsWithL ['"'] (pyStrip s)) = false) :
    cleanPost s = pyStrip s := by
  simp only [cleanPost, h, Bool.false_eq_true, if_false]

theorem cleanPost_quotes (s : List Char)
    (h : (startsWithL ['"'] (pyStrip s) && endsWithL ['"'] (pyStrip s)) = true) :
    cleanPost s = ((pyStrip s).drop 1).take ((pyStrip s).length - 2) := by
  simp only [cleanPost, h, if_true]

/-- C5: the content generator trims surrounding whitespace and strips one
surrounding pair of straight double quotes exactly when the trimmed reply both
starts and ends with one: the reply `"Hello world"` (with literal quotes)
becomes `Hello world`, an unquoted reply is returned with only the whitespace
trim, and the output differs from the trimmed reply exactly in the quoted
case. -/
theorem c5_quote_trim :
    cleanPost (lit "\"Hello world\"") = lit "Hello world"
    ∧ (∀ s, (startsWithL ['"'] (pyStrip s) && endsWithL ['"'] (pyStrip s)) = false →
        cleanPost s = pyStrip s)
    ∧ (∀ s, (startsWithL ['"'] (pyStrip s) && endsWithL ['"'] (pyStrip s)) = true →
        cleanPost s = ((pyStrip s).drop 1).take ((pyStrip s).length - 2))
    ∧ (∀ s, cleanPost s = pyStrip s ↔
        (startsWithL ['"'] (pyStrip s) && endsWithL ['"'] (pyStrip s)) = false) := by
  refine ⟨rfl, cleanPost_no_quotes, cleanPost_quotes, ?_⟩
  intro s
  constructor
  · intro heq
    cases hcond : (startsWithL ['"'] (pyStrip s) && endsWithL ['"'] (pyStrip s)) with
    | false => rfl
    | true =>
      exfalso
      have hne : pyStrip s ≠ [] :=
        startsWithL_cons_ne_nil (Bool.and_elim_left hcond)
      have hlen : (pyStrip s).length ≥ 1 := by
        cases hp : pyStrip s with
        | nil => exact absurd hp hne
        | cons a t => simp
      have h2 := cleanPost_quotes s hcond
      rw [heq] at h2
      have h3 := congrArg List.length h2
      rw [List.length_take, List.length_drop] at h3
      omega
  · exact cleanPost_no_quotes s

theorem c5_witness :
    cleanPost (lit "\"Hello world\"") = lit "Hello world"
    ∧ cleanPost (lit "  no quotes here ") = pyStrip (lit "  no quotes here ") :=
  ⟨c5_quote_trim.1, c5_quote_trim.2.1 _ rfl⟩

/-- C10: if the trimmed reply is exactly one straight double quote, the
startswith/endswith check treats it as both the leading and the trailing
quote and `post_content[1:-1]` yields the empty string. -/
theorem c10_single_quote (s : List Char) (h : pyStrip s = ['"']) :
    startsWithL ['"'] (pyStrip s) = true
    ∧ endsWithL ['"'] (pyStrip s) = true
    ∧ cleanPost s = [] := by
  refine ⟨by rw [h]; rfl, by rw [h]; rfl, ?_⟩
  simp only [cleanPost, h]
  rfl

theorem c10_witness :
    startsWithL ['"'] (pyStrip (lit " \" ")) = true
    ∧ endsWithL ['"'] (pyStrip (lit " \" ")) = true
    ∧ cleanPost (lit " \" ") = [] :=
  c10_single_quote (lit " \" ") rfl

/-! ## Claim theorems: C6, C7, C8 -/

/-- C6: the publisher's response handling returns a success result exactly for
status 201, with the post id read from the `x-restli-id` response header; any
other status yields a failure result carrying the raw response body (a single
function of one response — nothing is retried). -/
theorem c6_publish_result (resp : HttpResponse) :
    ((publishResponseResult resp).success = true ↔ resp.status = 201)
    ∧ (resp.status = 201 → publishResponseResult resp =
        { success := true,
          post_id := some (headersGet resp.headers (lit "x-restli-id") (lit "Unknown")),
          error := none })
    ∧ (resp.status ≠ 201 → publishResponseResult resp =
        { success := false, post_id := none, error := some resp.body }) := by
  by_cases h : resp.status = 201 <;>
    simp [publishResponseResult, h]

theorem c6_witness :
    publishResponseResult
        ⟨201, [(lit "x-restli-id", lit "urn:li:share:123")], lit ""⟩ =
      { success := true, post_id := some (lit "urn:li:share:123"), error := none }
    ∧ publishResponseResult ⟨422, [], lit "\x7b\"message\":\"bad request\"\x7d"⟩ =
      { success := false, post_id := none,
        error := some (lit "\x7b\"message\":\"bad request\"\x7d") } := by
  constructor
  · exact ((c6_publish_result _).2.1 rfl).trans (by decide)
  · exact (c6_publish_result _).2.2 (by decide)

theorem drop_one_append {α : Type} (l r : List α) (h : l ≠ []) :
    (l ++ r).drop 1 = l.drop 1 ++ r := by
  cases l with
  | nil => exact absurd rfl h
  | cons a t => simp

/-- C7: appending one entry through `save_to_history` keeps the stored
sequence bounded at 50 entries; appending a 51st entry to a 50-entry history
yields a 50-entry history with the front (oldest) entry evicted and the new
entry last. -/
theorem c7_history_bound (posts : List HistoryEntry)
    (now topic content pid : List Char) :
    (save_to_history posts now topic content pid).length ≤ 50
    ∧ (posts.length = 50 →
        save_to_history posts now topic content pid =
          posts.tail ++
            [ { date := now, topic := topic,
                post_preview := content.take 100 ++ lit "...",
                post_id := pid } ]
        ∧ (save_to_history posts now topic content pid).length = 50) := by
  constructor
  · simp only [save_to_history, List.length_drop]
    omega
  · intro h50
    have hne : posts ≠ [] := by
      intro hnil
      rw [hnil] at h50
      simp at h50
    have hlen : (posts ++
        [ ({ date := now, topic := topic,
             post_preview := content.take 100 ++ lit "...",
             post_id := pid } : HistoryEntry) ]).length = 51 := by
      simp [h50]
    constructor
    · simp only [save_to_history, hlen]
      norm_num
      cases posts with
      | nil => exact absurd rfl hne
      | cons a t => simp
    · simp only [save_to_history, List.length_drop, hlen]

theorem c7_witness :
    save_to_history (List.replicate 50 ⟨[], [], [], []⟩)
        (lit "2026-10-12") (lit "topic") (lit "content") (lit "id") =
      (List.replicate 50 (⟨[], [], [], []⟩ : HistoryEntry)).tail ++
        [ { date := lit "2026-10-12", topic := lit "topic",
            post_preview := (lit "content").take 100 ++ lit "...",
            post_id := lit "id" } ]
    ∧ (save_to_history (List.replicate 50 ⟨[], [], [], []⟩)
        (lit "2026-10-12") (lit "topic") (lit "content") (lit "id")).length = 50 :=
  (c7_history_bound (List.replicate 50 ⟨[], [], [], []⟩) _ _ _ _).2 (by simp)

/-- C8: when the publish stage reports failure — any non-201 publish status,
or a failed identity lookup — `main` does not invoke the history recorder and
the history state is unchanged; the history write happens only on success. -/
theorem c8_no_history_on_failure (result : PublishResult)
    (topic content now : List Char) (posts : List HistoryEntry) :
    (result.success = false → mainPublishStep result topic content now posts = posts)
    ∧ (∀ resp : HttpResponse, resp.status ≠ 201 →
        (publishResponseResult resp).success = false)
    ∧ (∀ (uis : Nat) (resp : HttpResponse), uis ≠ 200 →
        (post_to_linkedin true none uis resp).success = false) := by
  refine ⟨fun h => ?_, fun resp h => ?_, fun uis resp h => ?_⟩
  · simp [mainPublishStep, h]
  · simp [publishResponseResult, h]
  · simp [post_to_linkedin, h]

theorem c8_witness :
    mainPublishStep ⟨false, none, some (lit "err")⟩
      (lit "t") (lit "c") (lit "now") [] = [] :=
  (c8_no_history_on_failure ⟨false, none, some (lit "err")⟩
    (lit "t") (lit "c") (lit "now") []).1 rfl

/-! ## Claim theorems: C1 (corrected), C9 -/

/-- C1 counterexample: the literal reply `"not json"` *including the quote
characters* is valid JSON (a JSON string), so `json.loads` succeeds and
`result['selected_topic']` raises a `TypeError` that is not caught by the
`except json.JSONDecodeError` handler: `pick_best_topic` raises instead of
returning the fallback decision. -/
theorem c1_counterexample :
    pick_best_topic [⟨lit "Kotlin tips", lit "b", lit "s", lit "d"⟩]
        (lit "\"not json\"") = Except.error PyError.typeError
    ∧ pick_best_topic [⟨lit "Kotlin tips", lit "b", lit "s", lit "d"⟩]
        (lit "\"not json\"") ≠
      Except.ok (fallbackDecision ⟨lit "Kotlin tips", lit "b", lit "s", lit "d"⟩) := by
  constructor
  · rfl
  · intro h
    rw [show pick_best_topic [⟨lit "Kotlin tips", lit "b", lit "s", lit "d"⟩]
        (lit "\"not json\"") = Except.error PyError.typeError from rfl] at h
    exact Except.noConfusion h

/-- C1 (amended): for every non-empty candidate list, if JSON decoding of the
cleaned LLM reply fails (for example the literal reply `not json`, without
quote characters), `pick_best_topic` returns the fallback decision built from
the first candidate — generic angle, `post_type = "trend_analysis"` — and does
not raise. -/
theorem c1_amended_fallback (t0 : TopicCandidate) (rest : List TopicCandidate)
    (reply : List Char) (h : jsonLoadsL (cleanResp reply) = none) :
    pick_best_topic (t0 :: rest) reply = Except.ok (fallbackDecision t0) := by
  unfold pick_best_topic
  rw [h]

theorem c1_witness :
    jsonLoadsL (cleanResp (lit "not json")) = none
    ∧ pick_best_topic [⟨lit "Kotlin tips", lit "b", lit "s", lit "d"⟩]
        (lit "not json") =
      Except.ok (fallbackDecision ⟨lit "Kotlin tips", lit "b", lit "s", lit "d"⟩) :=
  ⟨rfl, c1_amended_fallback ⟨lit "Kotlin tips", lit "b", lit "s", lit "d"⟩ [] _ rfl⟩

/-- C9: only a JSON decoding failure triggers the first-candidate fallback;
if the reply decodes to a value that is not a dict containing both
`selected_topic` and `post_angle` (for example a bare JSON string, or an
object missing those keys), `pick_best_topic` propagates the resulting
`TypeError`/`KeyError` instead of returning the fallback decision. -/
theorem c9_error_propagates (topics : List TopicCandidate) (reply : List Char)
    (j : Json) (h : jsonLoadsL (cleanResp reply) = some j)
    (hbad : hasDecisionKeys j = false) :
    ∃ e, pick_best_topic topics reply = Except.error e ∧ e ≠ PyError.indexError := by
  unfold pick_best_topic
  rw [h]
  cases j with
  | obj kvs =>
    simp only [hasDecisionKeys, Bool.and_eq_false_iff] at hbad
    cases hsel : lookupLast kvs (lit "selected_topic") with
    | none =>
      exact ⟨PyError.keyError (lit "selected_topic"),
        by simp [pyGetItem, hsel], by simp⟩
    | some v =>
      have hang : lookupLast kvs (lit "post_angle") = none := by
        rcases hbad with hbad | hbad
        · rw [hsel] at hbad; simp at hbad
        · cases hx : lookupLast kvs (lit "post_angle") with
          | none => rfl
          | some w => rw [hx] at hbad; simp at hbad
      cases v with
      | str s =>
        exact ⟨PyError.keyError (lit "post_angle"),
          by simp [pyGetItem, hsel, hang, pyTake50], by simp⟩
      | arr a =>
        exact ⟨PyError.keyError (lit "post_angle"),
          by simp [pyGetItem, hsel, hang, pyTake50], by simp⟩
      | null => exact ⟨PyError.typeError, by simp [pyGetItem, hsel, pyTake50], by simp⟩
      | bool b => exact ⟨PyError.typeError, by simp [pyGetItem, hsel, pyTake50], by simp⟩
      | num lx => exact ⟨PyError.typeError, by simp [pyGetItem, hsel, pyTake50], by simp⟩
      | obj kvs2 => exact ⟨PyError.typeError, by simp [pyGetItem, hsel, pyTake50], by simp⟩
  | null => exact ⟨PyError.typeError, by simp [pyGetItem], by simp⟩
  | bool b => exact ⟨PyError.typeError, by simp [pyGetItem], by simp⟩
  | num lx => exact ⟨PyError.typeError, by simp [pyGetItem], by simp⟩
  | str s => exact ⟨PyError.typeError, by simp [pyGetItem], by simp⟩
  | arr a => exact ⟨PyError.typeError, by simp [pyGetItem], by simp⟩

theorem c9_witness :
    ∃ e, pick_best_topic [] (lit "\"not json\"") = Except.error e
      ∧ e ≠ PyError.indexError :=
  c9_error_propagates [] (lit "\"not json\"") (Json.str (lit "not json")) rfl rfl

/-! ## String helper lemmas for the fence round trip (C4) -/

theorem dropWhile_head_false {p : Char → Bool} :
    ∀ {l t : List Char} {a : Char}, l.dropWhile p = a :: t → p a = false := by
  intro l
  induction l with
  | nil => intro t a h; simp [List.dropWhile] at h
  | cons c cs ih =>
    intro t a h
    rw [List.dropWhile_cons] at h
    by_cases hc : p c
    · rw [if_pos hc] at h
      exact ih h
    · rw [if_neg hc] at h
      cases h
      exact Bool.eq_false_iff.mpr hc

theorem dropWhile_eq_self_of_head {p : Char → Bool} {l : List Char}
    (h : ∀ a t, l = a :: t → p a = false) : l.dropWhile p = l := by
  cases l with
  | nil => rfl
  | cons a t => rw [List.dropWhile_cons, if_neg (by simp [h a t rfl])]

theorem memGetLast? {l : List Char} {a : Char} (h : l.getLast? = some a) :
    a ∈ l := by
  have h2 : l.reverse.head? = some a := by rw [List.head?_reverse]; exact h
  have h3 : a ∈ l.reverse := List.mem_of_mem_head? (by rw [h2]; exact rfl)
  exact List.mem_reverse.mp h3

theorem pyStrip_decomp (l : List Char) :
    l.dropWhile isPyWs =
      pyStrip l ++ ((l.dropWhile isPyWs).reverse.takeWhile isPyWs).reverse := by
  unfold pyStrip
  have hdec := List.takeWhile_append_dropWhile isPyWs (l.dropWhile isPyWs).reverse
  have h2 := congrArg List.reverse hdec
  rw [List.reverse_append, List.reverse_reverse] at h2
  exact h2.symm

theorem pyStrip_head_not_ws {l : List Char} {a : Char}
    (h : (pyStrip l).head? = some a) : isPyWs a = false := by
  have hx := pyStrip_decomp l
  cases hp : pyStrip l with
  | nil => rw [hp] at h; simp at h
  | cons b t =>
    rw [hp] at h
    simp only [List.head?_cons, Option.some.injEq] at h
    obtain rfl : b = a := h
    rw [hp] at hx
    exact dropWhile_head_false (l := l) (hx.trans (List.cons_append _ _ _))

theorem pyStrip_getLast_not_ws {l : List Char} {b : Char}
    (h : (pyStrip l).getLast? = some b) : isPyWs b = false := by
  unfold pyStrip at h
  rw [List.getLast?_reverse] at h
  cases hy : (l.dropWhile isPyWs).reverse.dropWhile isPyWs with
  | nil => rw [hy] at h; simp at h
  | cons c t =>
    rw [hy] at h
    simp only [List.head?_cons, Option.some.injEq] at h
    obtain rfl : c = b := h
    exact dropWhile_head_false hy

theorem pyStrip_eq_self {l : List Char}
    (h1 : ∀ a, l.head? = some a → isPyWs a = false)
    (h2 : ∀ b, l.getLast? = some b → isPyWs b = false) : pyStrip l = l := by
  unfold pyStrip
  have hx : l.dropWhile isPyWs = l := by
    apply dropWhile_eq_self_of_head
    intro a t ht
    exact h1 a (by rw [ht]; rfl)
  rw [hx]
  have hy : l.reverse.dropWhile isPyWs = l.reverse := by
    apply dropWhile_eq_self_of_head
    intro a t ht
    apply h2 a
    rw [← List.head?_reverse, ht]
    rfl
  rw [hy, List.reverse_reverse]

theorem pyStrip_idem (l : List Char) : pyStrip (pyStrip l) = pyStrip l := by
  apply pyStrip_eq_self
  · intro a ha; exact pyStrip_head_not_ws ha
  · intro b hb; exact pyStrip_getLast_not_ws hb

theorem pyStrip_cons_ws {a : Char} {l : List Char} (h : isPyWs a = true) :
    pyStrip (a :: l) = pyStrip l := by
  unfold pyStrip
  rw [List.dropWhile_cons, if_pos (by simp [h])]

theorem pyStrip_append_ws {b : Char} {l : List Char} (h : isPyWs b = true) :
    pyStrip (l ++ [b]) = pyStrip l := by
  unfold pyStrip
  rw [List.dropWhile_append]
  cases hd : l.dropWhile isPyWs with
  | nil =>
    simp [hd, List.dropWhile_cons, h]
  | cons c t =>
    simp only [List.isEmpty_cons, Bool.false_eq_true, if_false]
    rw [List.reverse_append]
    simp only [List.reverse_cons, List.reverse_nil, List.nil_append,
      List.singleton_append]
    rw [List.dropWhile_cons, if_pos (by simp [h])]

theorem startsWithL_append_self : ∀ p t : List Char, startsWithL p (p ++ t) = true := by
  intro p
  induction p with
  | nil => intro t; rfl
  | cons a ps ih =>
    intro t
    simp only [List.cons_append, startsWithL, if_pos rfl]
    exact ih t

theorem startsWithL_false_of_head_ne {pat l : List Char} {pa a : Char}
    (hp : pat.head? = some pa) (hl : l.head? = some a) (hne : pa ≠ a) :
    startsWithL pat l = false := by
  cases pat with
  | nil => simp at hp
  | cons p ps =>
    cases l with
    | nil => simp at hl
    | cons c cs =>
      simp only [List.head?_cons, Option.some.injEq] at hp hl
      subst hp; subst hl
      simp only [startsWithL, if_neg hne]

theorem endsWithL_false_of_getLast_ne {l : List Char} {b : Char}
    (hl : l.getLast? = some b) (hne : b ≠ '`') :
    endsWithL (lit "```") l = false := by
  unfold endsWithL
  refine @startsWithL_false_of_head_ne _ _ '`' b rfl ?_ ?_
  · rw [List.head?_reverse]; exact hl
  · exact fun h => hne h.symm

theorem endsWithL_concat_self (x : List Char) :
    endsWithL (lit "```") (x ++ lit "```") = true := by
  unfold endsWithL
  rw [List.reverse_append]
  exact startsWithL_append_self (lit "```").reverse x.reverse

theorem cleanResp_wrap (d : List Char) : cleanResp (wrapFence d) = pyStrip d := by
  have h0 : pyStrip (wrapFence d) = wrapFence d := by
    apply pyStrip_eq_self
    · intro a ha
      have h1 : (wrapFence d).head? = some '`' := rfl
      have h2 := h1.symm.trans ha
      simp only [Option.some.injEq] at h2
      rw [← h2]
      rfl
    · intro b hb
      have h1 : (wrapFence d).getLast? = some '`' := by
        unfold wrapFence
        rw [List.getLast?_append_of_ne_nil _ (by simp : ('\n' :: lit "```") ≠ [])]
        rfl
      have h2 := h1.symm.trans hb
      simp only [Option.some.injEq] at h2
      rw [← h2]
      rfl
  have hw : wrapFence d = lit "```json" ++ (('\n' :: d) ++ ('\n' :: lit "```")) := by
    unfold wrapFence
    rw [List.append_assoc]
  have hcond1 : startsWithL (lit "```json") (wrapFence d) = true := by
    rw [hw]; exact startsWithL_append_self _ _
  have hdrop : (wrapFence d).drop 7 = ('\n' :: d) ++ ('\n' :: lit "```") := by
    rw [hw, show (7 : Nat) = (lit "```json").length from rfl, List.drop_left]
  have hcond2 : startsWithL (lit "```")
      (('\n' :: d) ++ ('\n' :: lit "```")) = false := rfl
  have hsplit : ('\n' :: d) ++ ('\n' :: lit "```") =
      (('\n' :: d) ++ ['\n']) ++ lit "```" := by
    rw [List.append_assoc]
    rfl
  have hcond3 : endsWithL (lit "```") (('\n' :: d) ++ ('\n' :: lit "```")) = true := by
    rw [hsplit]; exact endsWithL_concat_self _
  have htake : (('\n' :: d) ++ ('\n' :: lit "```")).take
      ((('\n' :: d) ++ ('\n' :: lit "```")).length - 3) = ('\n' :: d) ++ ['\n'] := by
    rw [hsplit]
    have hlen : ((('\n' :: d) ++ ['\n']) ++ lit "```").length - 3 =
        (('\n' :: d) ++ ['\n']).length := by
      simp only [List.length_append, List.length_cons,
        show (lit "```").length = 3 from rfl, List.length_singleton]
      omega
    rw [hlen, List.take_left]
  simp only [cleanResp]
  rw [h0, hcond1]
  simp only [if_true]
  rw [hdrop, hcond2]
  simp only [Bool.false_eq_true, if_false]
  rw [hcond3]
  simp only [if_true]
  rw [htake]
  rw [show ('\n' :: d) ++ ['\n'] = '\n' :: (d ++ ['\n']) from List.cons_append _ _ _]
  rw [pyStrip_cons_ws (by decide), pyStrip_append_ws (by decide)]

/-! ## Parser consumption-shape lemmas (C4) -/

theorem psb_shape : ∀ (fuel : Nat) (l s rest : List Char),
    parseStringBody fuel l = some (s, rest) → ∃ body, l = body ++ '"' :: rest := by
  intro fuel
  induction fuel with
  | zero => intro l s rest h; simp [parseStringBody] at h
  | succ fuel ih =>
    intro l s rest h
    cases l with
    | nil => simp [parseStringBody] at h
    | cons c cs =>
      simp only [parseStringBody] at h
      by_cases hq : c = '"'
      · rw [if_pos hq] at h
        simp only [Option.some.injEq, Prod.mk.injEq] at h
        refine ⟨[], ?_⟩
        rw [hq, h.2]
        rfl
      · rw [if_neg hq] at h
        by_cases hbs : c = '\\'
        · rw [if_pos hbs] at h
          split at h
          · simp at h
          · rename_i e cs2
            by_cases hu : e = 'u'
            · rw [if_pos hu] at h
              split at h
              · rename_i h1 h2 h3 h4 cs3
                split at h
                · cases hrec : parseStringBody fuel cs3 with
                  | none => rw [hrec] at h; simp at h
                  | some pr =>
                    obtain ⟨s2, r2⟩ := pr
                    rw [hrec] at h
                    simp only [Option.some.injEq, Prod.mk.injEq] at h
                    obtain ⟨body2, hbody⟩ := ih cs3 s2 r2 hrec
                    refine ⟨c :: e :: h1 :: h2 :: h3 :: h4 :: body2, ?_⟩
                    rw [hbody, ← h.2]
                    simp
                · simp at h
              · simp at h
            · rw [if_neg hu] at h
              cases hesc : escChar e with
              | none => rw [hesc] at h; simp at h
              | some ec =>
                rw [hesc] at h
                cases hrec : parseStringBody fuel cs2 with
                | none => rw [hrec] at h; simp at h
                | some pr =>
                  obtain ⟨s2, r2⟩ := pr
                  rw [hrec] at h
                  simp only [Option.some.injEq, Prod.mk.injEq] at h
                  obtain ⟨body2, hbody⟩ := ih cs2 s2 r2 hrec
                  refine ⟨c :: e :: body2, ?_⟩
                  rw [hbody, ← h.2]
                  simp
        · rw [if_neg hbs] at h
          by_cases hctl : c.toNat < 32
          · rw [if_pos hctl] at h; simp at h
          · rw [if_neg hctl] at h
            cases hrec : parseStringBody fuel cs with
            | none => rw [hrec] at h; simp at h
            | some pr =>
              obtain ⟨s2, r2⟩ := pr
              rw [hrec] at h
              simp only [Option.some.injEq, Prod.mk.injEq] at h
              obtain ⟨body2, hbody⟩ := ih cs s2 r2 hrec
              refine ⟨c :: body2, ?_⟩
              rw [hbody, ← h.2]
              simp

theorem parseIntPart_shape {l i r : List Char}
    (h : parseIntPart l = some (i, r)) :
    l = i ++ r ∧ (∃ a t, i = a :: t ∧ isDigitChar a = true)
    ∧ (∃ t b, i = t ++ [b] ∧ isDigitChar b = true) := by
  cases l with
  | nil => simp [parseIntPart] at h
  | cons c rest =>
    simp only [parseIntPart] at h
    by_cases c0 : c = '0'
    · rw [if_pos c0] at h
      simp only [Option.some.injEq, Prod.mk.injEq] at h
      obtain ⟨hi, hr⟩ := h
      subst hi; subst hr; subst c0
      exact ⟨rfl, ⟨'0', [], rfl, by decide⟩, ⟨[], '0', rfl, by decide⟩⟩
    · rw [if_neg c0] at h
      by_cases cd : isDigitChar c = true
      · rw [if_pos cd] at h
        simp only [Option.some.injEq, Prod.mk.injEq] at h
        obtain ⟨hi, hr⟩ := h
        subst hi; subst hr
        refine ⟨?_, ⟨c, _, rfl, cd⟩, ?_⟩
        · rw [List.cons_append, List.takeWhile_append_dropWhile]
        · rcases List.eq_nil_or_concat (rest.takeWhile isDigitChar) with htw | ⟨t2, b, htw⟩
          · rw [htw]
            exact ⟨[], c, rfl, cd⟩
          · rw [htw, List.concat_eq_append]
            refine ⟨c :: t2, b, by simp, ?_⟩
            apply List.mem_takeWhile_imp (l := rest)
            rw [htw, List.concat_eq_append]
            simp
      · rw [if_neg cd] at h
        simp at h

theorem parseFracPart_shape {l f r : List Char}
    (h : parseFracPart l = some (f, r)) :
    l = f ++ r ∧ (f = [] ∨ ∃ t b, f = t ++ [b] ∧ isDigitChar b = true) := by
  cases l with
  | nil =>
    simp only [parseFracPart, Option.some.injEq, Prod.mk.injEq] at h
    obtain ⟨hf, hr⟩ := h
    subst hf; subst hr
    exact ⟨rfl, Or.inl rfl⟩
  | cons c rest =>
    simp only [parseFracPart] at h
    by_cases hd : c = '.'
    · rw [if_pos hd] at h
      by_cases hds : (rest.takeWhile isDigitChar).isEmpty = true
      · simp only [hds, if_true] at h
        simp at h
      · simp only [hds, Bool.false_eq_true, if_false] at h
        simp only [Option.some.injEq, Prod.mk.injEq] at h
        obtain ⟨hf, hr⟩ := h
        subst hf; subst hr; subst hd
        refine ⟨?_, Or.inr ?_⟩
        · rw [List.cons_append, List.takeWhile_append_dropWhile]
        · rcases List.eq_nil_or_concat (rest.takeWhile isDigitChar) with htw | ⟨t2, b, htw⟩
          · rw [htw] at hds
            simp at hds
          · rw [htw, List.concat_eq_append]
            refine ⟨'.' :: t2, b, by simp, ?_⟩
            apply List.mem_takeWhile_imp (l := rest)
            rw [htw, List.concat_eq_append]
            simp
    · rw [if_neg hd] at h
      simp only [Option.some.injEq, Prod.mk.injEq] at h
      obtain ⟨hf, hr⟩ := h
      subst hf; subst hr
      exact ⟨rfl, Or.inl rfl⟩

theorem parseExpDigits_shape {pre l e r : List Char}
    (h : parseExpDigits pre l = some (e, r)) :
    pre ++ l = e ++ r ∧ ∃ t b, e = t ++ [b] ∧ isDigitChar b = true := by
  simp only [parseExpDigits] at h
  by_cases hds : (l.takeWhile isDigitChar).isEmpty = true
  · simp only [hds, if_true] at h
    simp at h
  · simp only [hds, Bool.false_eq_true, if_false] at h
    simp only [Option.some.injEq, Prod.mk.injEq] at h
    obtain ⟨he, hr⟩ := h
    subst he; subst hr
    refine ⟨?_, ?_⟩
    · rw [List.append_assoc, List.takeWhile_append_dropWhile]
    · rcases List.eq_nil_or_concat (l.takeWhile isDigitChar) with htw | ⟨t2, b, htw⟩
      · rw [htw] at hds
        simp at hds
      · rw [htw, List.concat_eq_append, ← List.append_assoc]
        refine ⟨pre ++ t2, b, rfl, ?_⟩
        apply List.mem_takeWhile_imp (l := l)
        rw [htw, List.concat_eq_append]
        simp

theorem parseExpPart_shape {l e r : List Char}
    (h : parseExpPart l = some (e, r)) :
    l = e ++ r ∧ (e = [] ∨ ∃ t b, e = t ++ [b] ∧ isDigitChar b = true) := by
  cases l with
  | nil =>
    simp only [parseExpPart, Option.some.injEq, Prod.mk.injEq] at h
    obtain ⟨he, hr⟩ := h
    subst he; subst hr
    exact ⟨rfl, Or.inl rfl⟩
  | cons c rest =>
    simp only [parseExpPart] at h
    by_cases hc : c = 'e' ∨ c = 'E'
    · rw [if_pos hc] at h
      cases rest with
      | nil => simp at h
      | cons sgn rest2 =>
        simp only [] at h
        by_cases hs : sgn = '+' ∨ sgn = '-'
        · rw [if_pos hs] at h
          obtain ⟨heq, t2, b, hb, hbd⟩ := parseExpDigits_shape h
          exact ⟨heq, Or.inr ⟨t2, b, hb, hbd⟩⟩
        · rw [if_neg hs] at h
          obtain ⟨heq, t2, b, hb, hbd⟩ := parseExpDigits_shape h
          refine ⟨?_, Or.inr ⟨t2, b, hb, hbd⟩⟩
          rw [← heq]
          rfl
    · rw [if_neg hc] at h
      simp only [Option.some.injEq, Prod.mk.injEq] at h
      obtain ⟨he, hr⟩ := h
      subst he; subst hr
      exact ⟨rfl, Or.inl rfl⟩

theorem parseNumTail_shape {pre r1 lex r3 : List Char}
    (h : parseNumTail pre r1 = some (lex, r3)) :
    ∃ tail, lex = pre ++ tail ∧ r1 = tail ++ r3
    ∧ (tail = [] ∨ ∃ t b, tail = t ++ [b] ∧ isDigitChar b = true) := by
  simp only [parseNumTail] at h
  cases hf : parseFracPart r1 with
  | none => rw [hf] at h; simp at h
  | some pf =>
    obtain ⟨f, r2⟩ := pf
    rw [hf] at h
    simp only [] at h
    cases he : parseExpPart r2 with
    | none => rw [he] at h; simp at h
    | some pe =>
      obtain ⟨e2, r3b⟩ := pe
      rw [he] at h
      simp only [Option.some.injEq, Prod.mk.injEq] at h
      obtain ⟨hlex, hr3⟩ := h
      subst hr3
      obtain ⟨hfr, hfd⟩ := parseFracPart_shape hf
      obtain ⟨her, hed⟩ := parseExpPart_shape he
      refine ⟨f ++ e2, by rw [← hlex, List.append_assoc], ?_, ?_⟩
      · rw [hfr, her, List.append_assoc]
      · rcases hed with he0 | ⟨t2, b, hb, hbd⟩
        · subst he0
          rcases hfd with hf0 | ⟨t2, b, hb, hbd⟩
          · subst hf0
            exact Or.inl rfl
          · exact Or.inr ⟨t2, b, by rw [hb]; simp, hbd⟩
        · exact Or.inr ⟨f ++ t2, b, by rw [hb, List.append_assoc], hbd⟩

theorem parseNumber_shape {l lex r : List Char}
    (h : parseNumber l = some (lex, r)) :
    l = lex ++ r ∧ (∃ a t, lex = a :: t ∧ ValueStart a)
    ∧ (∃ t b, lex = t ++ [b] ∧ ValueEnd b) := by
  cases l with
  | nil => simp [parseNumber] at h
  | cons c rest =>
    simp only [parseNumber] at h
    by_cases hm : c = '-'
    · rw [if_pos hm] at h
      cases hip : parseIntPart rest with
      | none => rw [hip] at h; simp at h
      | some pi =>
        obtain ⟨i, r1⟩ := pi
        rw [hip] at h
        obtain ⟨tail, hlex, hr1, htail⟩ := parseNumTail_shape h
        obtain ⟨hieq, ⟨a, t, hstart, had⟩, ⟨t2, b, hend, hbd⟩⟩ := parseIntPart_shape hip
        subst hm
        refine ⟨?_, ?_, ?_⟩
        · rw [hlex, hieq, hr1]
          simp
        · exact ⟨'-', i ++ tail, by rw [hlex]; rfl, Or.inr (Or.inr (Or.inr (Or.inr
            (Or.inr (Or.inr (Or.inl rfl))))))⟩
        · rcases htail with ht0 | ⟨t3, b3, hb3, hb3d⟩
          · subst ht0
            refine ⟨'-' :: t2, b, ?_, Or.inr (Or.inr (Or.inr (Or.inr (Or.inr hbd))))⟩
            rw [hlex, hend]
            simp
          · refine ⟨('-' :: i) ++ t3, b3, ?_,
              Or.inr (Or.inr (Or.inr (Or.inr (Or.inr hb3d))))⟩
            rw [hlex, hb3]
            simp
    · rw [if_neg hm] at h
      cases hip : parseIntPart (c :: rest) with
      | none => rw [hip] at h; simp at h
      | some pi =>
        obtain ⟨i, r1⟩ := pi
        rw [hip] at h
        obtain ⟨tail, hlex, hr1, htail⟩ := parseNumTail_shape h
        obtain ⟨hieq, ⟨a, t, hstart, had⟩, ⟨t2, b, hend, hbd⟩⟩ := parseIntPart_shape hip
        refine ⟨?_, ?_, ?_⟩
        · rw [hlex, hieq, hr1]
          simp
        · exact ⟨a, t ++ tail, by rw [hlex, hstart]; rfl,
            Or.inr (Or.inr (Or.inr (Or.inr (Or.inr (Or.inr (Or.inr had))))))⟩
        · rcases htail with ht0 | ⟨t3, b3, hb3, hb3d⟩
          · subst ht0
            refine ⟨t2, b, ?_, Or.inr (Or.inr (Or.inr (Or.inr (Or.inr hbd))))⟩
            rw [hlex, hend]
            simp
          · refine ⟨i ++ t3, b3, ?_,
              Or.inr (Or.inr (Or.inr (Or.inr (Or.inr hb3d))))⟩
            rw [hlex, hb3]
            simp

theorem skipWs_split {x y : List Char} (heq : skipWs x = y) :
    x = x.takeWhile isJsonWs ++ y := by
  rw [← heq]
  exact (List.takeWhile_append_dropWhile _ _).symm

theorem parse_shape : ∀ fuel : Nat,
    (∀ l v rest, parseValue fuel l = some (v, rest) → ValShape l rest)
    ∧ (∀ l acc v rest, parseMembers fuel l acc = some (v, rest) → MemShape l rest)
    ∧ (∀ l acc v rest, parseElems fuel l acc = some (v, rest) → ElemShape l rest) := by
  intro fuel
  induction fuel with
  | zero =>
    refine ⟨?_, ?_, ?_⟩
    · intro l v rest h; simp [parseValue] at h
    · intro l acc v rest h; simp [parseMembers] at h
    · intro l acc v rest h; simp [parseElems] at h
  | succ fuel ih =>
    obtain ⟨ihV, ihM, ihE⟩ := ih
    refine ⟨?_, ?_, ?_⟩
    · intro l v rest h
      cases l with
      | nil => simp [parseValue] at h
      | cons c cs =>
        simp only [parseValue] at h
        by_cases hn : c = 'n'
        · rw [if_pos hn] at h
          split at h
          · rename_i r
            simp only [Option.some.injEq, Prod.mk.injEq] at h
            subst hn
            refine ⟨['n', 'u', 'l', 'l'], 'n', 'l', ?_, rfl, rfl, by unfold ValueStart; decide, by unfold ValueEnd; decide⟩
            rw [← h.2]
            rfl
          · simp at h
        · rw [if_neg hn] at h
          by_cases ht : c = 't'
          · rw [if_pos ht] at h
            split at h
            · rename_i r
              simp only [Option.some.injEq, Prod.mk.injEq] at h
              subst ht
              refine ⟨['t', 'r', 'u', 'e'], 't', 'e', ?_, rfl, rfl, by unfold ValueStart; decide, by unfold ValueEnd; decide⟩
              rw [← h.2]
              rfl
            · simp at h
          · rw [if_neg ht] at h
            by_cases hf : c = 'f'
            · rw [if_pos hf] at h
              split at h
              · rename_i r
                simp only [Option.some.injEq, Prod.mk.injEq] at h
                subst hf
                refine ⟨['f', 'a', 'l', 's', 'e'], 'f', 'e', ?_, rfl, rfl,
                  by unfold ValueStart; decide, by unfold ValueEnd; decide⟩
                rw [← h.2]
                rfl
              · simp at h
            · rw [if_neg hf] at h
              by_cases hq : c = '"'
              · rw [if_pos hq] at h
                cases hsb : parseStringBody fuel cs with
                | none => rw [hsb] at h; simp at h
                | some pr =>
                  obtain ⟨s2, r2⟩ := pr
                  rw [hsb] at h
                  simp only [Option.some.injEq, Prod.mk.injEq] at h
                  obtain ⟨body, hbody⟩ := psb_shape fuel cs s2 r2 hsb
                  subst hq
                  refine ⟨'"' :: (body ++ ['"']), '"', '"', ?_, rfl, ?_,
                    by unfold ValueStart; decide, by unfold ValueEnd; decide⟩
                  · rw [hbody, ← h.2]
                    simp
                  · rw [show '"' :: (body ++ ['"']) = ('"' :: body) ++ ['"'] from rfl]
                    exact List.getLast?_concat _
              · rw [if_neg hq] at h
                by_cases hob : c = '{'
                · rw [if_pos hob] at h
                  split at h
                  · rename_i r heq
                    simp only [Option.some.injEq, Prod.mk.injEq] at h
                    subst hob
                    refine ⟨'{' :: (cs.takeWhile isJsonWs ++ ['}']), '{', '}', ?_,
                      rfl, ?_, by unfold ValueStart; decide, by unfold ValueEnd; decide⟩
                    · rw [← h.2]
                      conv_lhs => rw [skipWs_split heq]
                      simp
                    · rw [show '{' :: (cs.takeWhile isJsonWs ++ ['}']) =
                        ('{' :: cs.takeWhile isJsonWs) ++ ['}'] from rfl]
                      exact List.getLast?_concat _
                  · obtain ⟨t5, hm⟩ := ihM (skipWs cs) [] v rest h
                    subst hob
                    refine ⟨'{' :: (cs.takeWhile isJsonWs ++ (t5 ++ ['}'])), '{', '}',
                      ?_, rfl, ?_, by unfold ValueStart; decide, by unfold ValueEnd; decide⟩
                    · conv_lhs => rw [skipWs_split (rfl : skipWs cs = skipWs cs), hm]
                      simp
                    · rw [show '{' :: (cs.takeWhile isJsonWs ++ (t5 ++ ['}'])) =
                        ('{' :: (cs.takeWhile isJsonWs ++ t5)) ++ ['}'] from by simp]
                      exact List.getLast?_concat _
                · rw [if_neg hob] at h
                  by_cases har : c = '['
                  · rw [if_pos har] at h
                    split at h
                    · rename_i r heq
                      simp only [Option.some.injEq, Prod.mk.injEq] at h
                      subst har
                      refine ⟨'[' :: (cs.takeWhile isJsonWs ++ [']']), '[', ']', ?_,
                        rfl, ?_, by unfold ValueStart; decide, by unfold ValueEnd; decide⟩
                      · rw [← h.2]
                        conv_lhs => rw [skipWs_split heq]
                        simp
                      · rw [show '[' :: (cs.takeWhile isJsonWs ++ [']']) =
                          ('[' :: cs.takeWhile isJsonWs) ++ [']'] from rfl]
                        exact List.getLast?_concat _
                    · obtain ⟨t5, hm⟩ := ihE (skipWs cs) [] v rest h
                      subst har
                      refine ⟨'[' :: (cs.takeWhile isJsonWs ++ (t5 ++ [']'])), '[', ']',
                        ?_, rfl, ?_, by unfold ValueStart; decide, by unfold ValueEnd; decide⟩
                      · conv_lhs => rw [skipWs_split (rfl : skipWs cs = skipWs cs), hm]
                        simp
                      · rw [show '[' :: (cs.takeWhile isJsonWs ++ (t5 ++ [']'])) =
                          ('[' :: (cs.takeWhile isJsonWs ++ t5)) ++ [']'] from by simp]
                        exact List.getLast?_concat _
                  · rw [if_neg har] at h
                    cases hpn : parseNumber (c :: cs) with
                    | none => rw [hpn] at h; simp at h
                    | some pr =>
                      obtain ⟨lex, r2⟩ := pr
                      rw [hpn] at h
                      simp only [Option.some.injEq, Prod.mk.injEq] at h
                      obtain ⟨hleq, ⟨a, t, hstart, hsa⟩, ⟨t2, b, hend, heb⟩⟩ :=
                        parseNumber_shape hpn
                      refine ⟨lex, a, b, ?_, ?_, ?_, hsa, heb⟩
                      · rw [← h.2]
                        exact hleq
                      · rw [hstart]
                        rfl
                      · rw [hend]
                        exact List.getLast?_concat _
    · intro l acc v rest h
      simp only [parseMembers] at h
      split at h
      · rename_i rest1
        cases hk : parseStringBody fuel rest1 with
        | none => rw [hk] at h; simp at h
        | some pk =>
          obtain ⟨k, r1⟩ := pk
          rw [hk] at h
          simp only [] at h
          obtain ⟨bodyk, hbody⟩ := psb_shape fuel rest1 k r1 hk
          split at h
          · rename_i r2 heq1
            cases hv : parseValue fuel (skipWs r2) with
            | none => rw [hv] at h; simp at h
            | some pv =>
              obtain ⟨v0, r3⟩ := pv
              rw [hv] at h
              simp only [] at h
              obtain ⟨corev, a0, b0, hcv, _, _, _, _⟩ := ihV (skipWs r2) v0 r3 hv
              split at h
              · rename_i r4 heq2
                obtain ⟨t5, hm⟩ := ihM (skipWs r4) (acc ++ [(k, v0)]) v rest h
                refine ⟨'"' :: bodyk ++ '"' :: (r1.takeWhile isJsonWs) ++ ':' ::
                  (r2.takeWhile isJsonWs) ++ corev ++ (r3.takeWhile isJsonWs) ++ ',' ::
                  (r4.takeWhile isJsonWs) ++ t5, ?_⟩
                rw [hbody]
                conv_lhs => rw [skipWs_split heq1, skipWs_split (rfl : skipWs r2 = skipWs r2),
                  hcv, skipWs_split heq2, skipWs_split (rfl : skipWs r4 = skipWs r4), hm]
                simp
              · rename_i r4 heq2
                simp only [Option.some.injEq, Prod.mk.injEq] at h
                refine ⟨'"' :: bodyk ++ '"' :: (r1.takeWhile isJsonWs) ++ ':' ::
                  (r2.takeWhile isJsonWs) ++ corev ++ (r3.takeWhile isJsonWs), ?_⟩
                rw [← h.2, hbody]
                conv_lhs => rw [skipWs_split heq1, skipWs_split (rfl : skipWs r2 = skipWs r2),
                  hcv, skipWs_split heq2]
                simp
              · simp at h
          · simp at h
      · simp at h
    · intro l acc v rest h
      simp only [parseElems] at h
      cases hv : parseValue fuel l with
      | none => rw [hv] at h; simp at h
      | some pv =>
        obtain ⟨v0, r1⟩ := pv
        rw [hv] at h
        simp only [] at h
        obtain ⟨corev, a0, b0, hcv, _, _, _, _⟩ := ihV l v0 r1 hv
        split at h
        · rename_i r2 heq1
          obtain ⟨t5, hm⟩ := ihE (skipWs r2) (acc ++ [v0]) v rest h
          refine ⟨corev ++ (r1.takeWhile isJsonWs) ++ ',' ::
            (r2.takeWhile isJsonWs) ++ t5, ?_⟩
          rw [hcv]
          conv_lhs => rw [skipWs_split heq1, skipWs_split (rfl : skipWs r2 = skipWs r2), hm]
          simp
        · rename_i r2 heq1
          simp only [Option.some.injEq, Prod.mk.injEq] at h
          refine ⟨corev ++ (r1.takeWhile isJsonWs), ?_⟩
          rw [← h.2, hcv]
          conv_lhs => rw [skipWs_split heq1]
          simp
        · simp at h

theorem jsonWs_pyWs {c : Char} (h : isJsonWs c = true) : isPyWs c = true := by
  simp only [isJsonWs, decide_eq_true_eq] at h
  simp only [isPyWs, decide_eq_true_eq]
  tauto

theorem valueStart_props {a : Char} (h : ValueStart a) :
    a ≠ '`' ∧ isPyWs a = false := by
  rcases h with rfl | rfl | rfl | rfl | rfl | rfl | rfl | hd
  · exact ⟨by decide, by decide⟩
  · exact ⟨by decide, by decide⟩
  · exact ⟨by decide, by decide⟩
  · exact ⟨by decide, by decide⟩
  · exact ⟨by decide, by decide⟩
  · exact ⟨by decide, by decide⟩
  · exact ⟨by decide, by decide⟩
  · simp only [isDigitChar, decide_eq_true_eq] at hd
    rcases hd with rfl | rfl | rfl | rfl | rfl | rfl | rfl | rfl | rfl | rfl <;>
      exact ⟨by decide, by decide⟩

theorem valueEnd_props {b : Char} (h : ValueEnd b) :
    b ≠ '`' ∧ isPyWs b = false := by
  rcases h with rfl | rfl | rfl | rfl | rfl | hd
  · exact ⟨by decide, by decide⟩
  · exact ⟨by decide, by decide⟩
  · exact ⟨by decide, by decide⟩
  · exact ⟨by decide, by decide⟩
  · exact ⟨by decide, by decide⟩
  · simp only [isDigitChar, decide_eq_true_eq] at hd
    rcases hd with rfl | rfl | rfl | rfl | rfl | rfl | rfl | rfl | rfl | rfl <;>
      exact ⟨by decide, by decide⟩

theorem jsonLoads_shape {l : List Char} {v : Json}
    (h : jsonLoadsL l = some v)
    (hhead : ∀ a, l.head? = some a → isPyWs a = false)
    (hlast : ∀ b, l.getLast? = some b → isPyWs b = false) :
    ∃ a b, l.head? = some a ∧ l.getLast? = some b ∧ ValueStart a ∧ ValueEnd b := by
  simp only [jsonLoadsL] at h
  cases hp : parseValue (l.length + 1) (skipWs l) with
  | none => rw [hp] at h; simp at h
  | some pr =>
    obtain ⟨v0, rest⟩ := pr
    rw [hp] at h
    simp only [] at h
    by_cases hall : rest.all isJsonWs = true
    · obtain ⟨core, a, b, hcore, hh, hl, hs, he⟩ :=
        (parse_shape (l.length + 1)).1 (skipWs l) v0 rest hp
      have htw : l.takeWhile isJsonWs = [] := by
        cases htww : l.takeWhile isJsonWs with
        | nil => rfl
        | cons x xs =>
          have hdec := skipWs_split (rfl : skipWs l = skipWs l)
          rw [htww] at hdec
          have hx : l.head? = some x := by rw [hdec]; rfl
          have hxws : isJsonWs x = true :=
            List.mem_takeWhile_imp (by rw [htww]; exact List.mem_cons_self _ _)
          have h1 := hhead x hx
          have h2 := jsonWs_pyWs hxws
          rw [h1] at h2
          exact absurd h2 (by decide)
      have hsl : skipWs l = l := by
        have hdec := skipWs_split (rfl : skipWs l = skipWs l)
        rw [htw] at hdec
        simpa using hdec.symm
      have hrest : rest = [] := by
        rcases List.eq_nil_or_concat rest with h0 | ⟨t0, z, hz⟩
        · exact h0
        · exfalso
          have hzl : l.getLast? = some z := by
            rw [← hsl, hcore, hz, List.concat_eq_append, ← List.append_assoc]
            exact List.getLast?_concat _
          have hzws : isJsonWs z = true := by
            have := List.all_eq_true.mp hall z
              (by rw [hz, List.concat_eq_append]; simp)
            simpa using this
          have h1 := hlast z hzl
          have h2 := jsonWs_pyWs hzws
          rw [h1] at h2
          exact absurd h2 (by decide)
      have hlc : l = core := by
        rw [← hsl, hcore, hrest]
        simp
      exact ⟨a, b, by rw [hlc]; exact hh, by rw [hlc]; exact hl, hs, he⟩
    · simp [hall] at h

theorem cleanResp_id {d : List Char} {v : Json}
    (h : jsonLoadsL (pyStrip d) = some v) : cleanResp d = pyStrip d := by
  obtain ⟨a, b, hh, hl, hs, he⟩ := jsonLoads_shape h
    (fun a ha => pyStrip_head_not_ws ha) (fun b hb => pyStrip_getLast_not_ws hb)
  obtain ⟨hanb, _⟩ := valueStart_props hs
  obtain ⟨hbnb, _⟩ := valueEnd_props he
  have hc1 : startsWithL (lit "```json") (pyStrip d) = false :=
    startsWithL_false_of_head_ne rfl hh (fun hx => hanb hx.symm)
  have hc2 : startsWithL (lit "```") (pyStrip d) = false :=
    startsWithL_false_of_head_ne rfl hh (fun hx => hanb hx.symm)
  have hc3 : endsWithL (lit "```") (pyStrip d) = false :=
    endsWithL_false_of_getLast_ne hl hbnb
  simp only [cleanResp, hc1, hc2, hc3, Bool.false_eq_true, if_false]
  exact pyStrip_idem d

/-- C4: for every JSON document `d` (a reply whose stripped text `json.loads`
accepts), parsing the reply consisting of `d` wrapped in triple-backtick code
fences with a leading `json` tag yields exactly the same outcome as parsing
the unwrapped `d` directly. -/
theorem c4_fence_roundtrip (topics : List TopicCandidate) (d : List Char)
    (v : Json) (h : jsonLoadsL (pyStrip d) = some v) :
    pick_best_topic topics (wrapFence d) = pick_best_topic topics d := by
  unfold pick_best_topic
  rw [cleanResp_wrap, cleanResp_id h]

theorem c4_witness :
    jsonLoadsL (pyStrip (lit "\x7b\"selected_topic\": \"T\", \"post_angle\": \"A\"\x7d")) =
      some (Json.obj [(lit "selected_topic", Json.str (lit "T")),
                      (lit "post_angle", Json.str (lit "A"))])
    ∧ pick_best_topic []
        (wrapFence (lit "\x7b\"selected_topic\": \"T\", \"post_angle\": \"A\"\x7d")) =
      pick_best_topic [] (lit "\x7b\"selected_topic\": \"T\", \"post_angle\": \"A\"\x7d") :=
  ⟨rfl, c4_fence_roundtrip [] _
    (Json.obj [(lit "selected_topic", Json.str (lit "T")),
               (lit "post_angle", Json.str (lit "A"))]) rfl⟩
